import Mathlib

/-!
Verification of the `circbuf` lock-free circular buffer (src/circbuf.h)
against its natural-language specification, in a sequential (interleaving-free)
shallow embedding.

The embedding models the SPSC code path of `circbuf.h` (the default build,
`CIRCBUF_MPMC` not defined).  Machine integers are `Nat` with explicit
reduction modulo `2^32` wherever the C code's `uint32_t` arithmetic can wrap.
Pointers that the C code only checks against NULL are modelled as `Bool`
flags (`slotsNull`, and the non-null flags passed to `cb_init`); payload
memory is modelled as lists of bytes (`List Nat`).  The allocator is
modelled by an `allocOk` flag (does `alloc.alloc` succeed), a `hasFree`
flag (is `alloc.free` non-null) and a function `mem` giving the arbitrary
initial content of the allocated region; the embedding counts calls to the
allocator's `alloc`/`free` so that allocation claims can be stated.
-/

namespace Circbuf

/-- The modulus `2^32` of the ring's 32-bit counters and sequence numbers. -/
def M : Nat := 4294967296

/-- Model of `CircularBuffer` (plus the `Slot` array it owns).
`seqs` are the per-slot `seq` fields, `slots` the per-slot payload bytes,
`slotsNull` models `cb->slots == NULL`, `hasFree` models
`cb->alloc.free != NULL`.  The `stride` field of the C struct is pure
memory-layout bookkeeping and has no observable effect in the model. -/
structure CircBuf where
  slot_size : Nat
  mask : Nat
  slotsNull : Bool
  hasFree : Bool
  head : Nat
  tail : Nat
  seqs : List Nat
  slots : List (List Nat)
deriving DecidableEq, Repr

/-- The ring's capacity, `mask + 1`. -/
def cbCap (cb : CircBuf) : Nat := cb.mask + 1

/-- Model of `cb_is_power_of_two`: `(n >= 2 && (n & (n - 1)) == 0)`. -/
def cb_is_power_of_two (n : Nat) : Bool :=
  decide (2 ≤ n) && (n &&& (n - 1) == 0)

/-- The slot index computed by `cb_slot`: `pos & cb->mask`. -/
def cb_slot_index (cb : CircBuf) (pos : Nat) : Nat := pos &&& cb.mask

/-- Model of `cb_init`.  Returns (return value, resulting ring state, number of calls
made to the allocator's `alloc` function).  `-22` is `-EINVAL`, `-12` is
`-ENOMEM`.  On the `-EINVAL` path the C code returns before writing any
field, so `old` is returned unchanged; on the `-ENOMEM` path the C code has
already written `stride`, `alloc`, `slot_size` and `mask` and has stored the
NULL result into `cb->slots`.  `mem i j` is byte `j` of slot `i` of the
freshly allocated (uninitialized) region. -/
def cb_init (old : CircBuf) (cbNonNull allocNonNull hasFree allocOk : Bool)
    (capacity slot_size : Nat) (mem : Nat → Nat → Nat) : Int × CircBuf × Nat :=
  if !cbNonNull || !allocNonNull || !(cb_is_power_of_two capacity) || slot_size == 0 then
    (-22, old, 0)
  else
    let cb1 : CircBuf :=
      { old with slot_size := slot_size, mask := capacity - 1, hasFree := hasFree }
    if !allocOk then
      (-12, { cb1 with slotsNull := true }, 1)
    else
      (0, { cb1 with
              slotsNull := false,
              slots := (List.range capacity).map (fun i => (List.range slot_size).map (mem i)),
              seqs := List.range capacity,
              head := 0, tail := 0 }, 1)

/-- Model of `cb_free`.  Returns (resulting state, number of calls made to the
allocator's `free` function). -/
def cb_free (cb : CircBuf) : CircBuf × Nat :=
  if cb.slotsNull then (cb, 0)
  else ({ cb with slotsNull := true }, if cb.hasFree then 1 else 0)

/-- Model of `cb_push_claim`, SPSC path.  `none` models the NULL ("full") return;
`some (pos, cb')` returns the claimed position and the state after the
relaxed store `head = pos + 1`. -/
def cb_push_claim (cb : CircBuf) : Option (Nat × CircBuf) :=
  let pos := cb.head
  let seq := cb.seqs.getD (cb_slot_index cb pos) 0
  if seq ≠ pos then none
  else some (pos, { cb with head := (pos + 1) % M })

/-- Model of `cb_push_publish`: store `pos + 1` into the slot's `seq`. -/
def cb_push_publish (cb : CircBuf) (pos : Nat) : CircBuf :=
  { cb with seqs := cb.seqs.set (cb_slot_index cb pos) ((pos + 1) % M) }

/-- Model of `cb_push`: validate `size`, claim, `memcpy` `size` bytes into the slot,
publish.  Returns (return value, resulting state). -/
def cb_push (cb : CircBuf) (data : List Nat) (size : Nat) : Int × CircBuf :=
  if size > cb.slot_size then (-22, cb)
  else
    match cb_push_claim cb with
    | none => (-1, cb)
    | some (pos, cb1) =>
      let idx := cb_slot_index cb1 pos
      let oldSlot := cb1.slots.getD idx []
      let cb2 := { cb1 with slots := cb1.slots.set idx (data.take size ++ oldSlot.drop size) }
      (0, cb_push_publish cb2 pos)

/-- Model of `cb_pop_claim`, SPSC path. -/
def cb_pop_claim (cb : CircBuf) : Option (Nat × CircBuf) :=
  let pos := cb.tail
  let seq := cb.seqs.getD (cb_slot_index cb pos) 0
  if seq ≠ (pos + 1) % M then none
  else some (pos, { cb with tail := (pos + 1) % M })

/-- Model of `cb_pop_release`: store `pos + cb->mask + 1` into the slot's `seq`. -/
def cb_pop_release (cb : CircBuf) (pos : Nat) : CircBuf :=
  { cb with seqs := cb.seqs.set (cb_slot_index cb pos) ((pos + cb.mask + 1) % M) }

/-- Model of `cb_pop`: validate `size`, claim, `memcpy` `size` bytes out of the slot,
release.  Returns (return value, bytes copied out, resulting state). -/
def cb_pop (cb : CircBuf) (size : Nat) : Int × List Nat × CircBuf :=
  if size > cb.slot_size then (-22, [], cb)
  else
    match cb_pop_claim cb with
    | none => (-1, [], cb)
    | some (pos, cb1) =>
      let idx := cb_slot_index cb1 pos
      let out := (cb1.slots.getD idx []).take size
      (0, out, cb_pop_release cb1 pos)

/-- An operation of the sequential SPSC model: a full-slot push of the given
payload, or a full-slot pop. -/
inductive CbOp where
  | push : List Nat → CbOp
  | pop : CbOp
deriving DecidableEq, Repr

/-- Run a list of operations; collect the payloads of the successful pushes
and the outputs of the successful pops, in issue order. -/
def runOps : List CbOp → CircBuf → CircBuf × List (List Nat) × List (List Nat)
  | [], cb => (cb, [], [])
  | CbOp.push d :: rest, cb =>
    let r := cb_push cb d cb.slot_size
    let rec' := runOps rest r.2
    if r.1 = 0 then (rec'.1, d :: rec'.2.1, rec'.2.2)
    else (rec'.1, rec'.2.1, rec'.2.2)
  | CbOp.pop :: rest, cb =>
    let r := cb_pop cb cb.slot_size
    let rec' := runOps rest r.2.2
    if r.1 = 0 then (rec'.1, rec'.2.1, r.2.1 :: rec'.2.2)
    else (rec'.1, rec'.2.1, rec'.2.2)

/-- Perform `n` pushes of `payload i, payload (i+1), ...`; `none` as soon as
one of them does not return 0. -/
def pushN (payload : Nat → List Nat) : Nat → Nat → CircBuf → Option CircBuf
  | _, 0, cb => some cb
  | i, n + 1, cb =>
    let r := cb_push cb (payload i) cb.slot_size
    if r.1 = 0 then pushN payload (i + 1) n r.2 else none

/-- Perform `n` push/pop round trips starting at message index `i`;
`true` iff every push and pop succeeds and every pop returns exactly the
payload pushed in the same round. -/
def roundTrips (payload : Nat → List Nat) : Nat → Nat → CircBuf → Bool
  | _, 0, _ => true
  | i, n + 1, cb =>
    let p := cb_push cb (payload i) cb.slot_size
    let q := cb_pop p.2 p.2.slot_size
    p.1 == 0 && q.1 == 0 && q.2.1 == payload i && roundTrips payload (i + 1) n q.2.2

/-- One protocol step of the sequential model: a successful push claim, a
publish at an arbitrary 32-bit position, a successful pop claim, or a
release at an arbitrary 32-bit position. -/
inductive Step : CircBuf → CircBuf → Prop where
  | push_claim (cb cb' : CircBuf) (pos : Nat) (h : cb_push_claim cb = some (pos, cb')) :
      Step cb cb'
  | push_publish (cb : CircBuf) (pos : Nat) (hpos : pos < M) : Step cb (cb_push_publish cb pos)
  | pop_claim (cb cb' : CircBuf) (pos : Nat) (h : cb_pop_claim cb = some (pos, cb')) :
      Step cb cb'
  | pop_release (cb : CircBuf) (pos : Nat) (hpos : pos < M) : Step cb (cb_pop_release cb pos)

/-- Reachability by any sequence of claim/publish/release steps. -/
inductive Reach : CircBuf → CircBuf → Prop where
  | refl (cb : CircBuf) : Reach cb cb
  | step (a b c : CircBuf) (h1 : Reach a b) (h2 : Step b c) : Reach a c

end Circbuf

namespace Circbuf

theorem getD_set_self {α : Type} {l : List α} {i : Nat} {a d : α} (h : i < l.length) :
    (l.set i a).getD i d = a := by
  simp [List.getD_eq_getElem?_getD, List.getElem?_set_self h]

theorem getD_set_ne {α : Type} {l : List α} {i j : Nat} {a d : α} (h : i ≠ j) :
    (l.set i a).getD j d = l.getD j d := by
  simp [List.getD_eq_getElem?_getD, List.getElem?_set_ne h]

theorem getD_range {n i : Nat} (h : i < n) : (List.range n).getD i 0 = i := by
  simp [List.getD_eq_getElem?_getD, List.getElem?_range h]

theorem land_pred_double (m : Nat) (hm : 1 ≤ m) :
    (2 * m) &&& (2 * m - 1) = 2 * (m &&& (m - 1)) := by
  apply Nat.eq_of_testBit_eq
  intro i
  cases i with
  | zero => simp [Nat.testBit_and, Nat.testBit_zero, Nat.mul_mod_right]
  | succ i =>
    have h1 : 2 * m / 2 = m := by omega
    have h2 : (2 * m - 1) / 2 = m - 1 := by omega
    have h3 : 2 * (m &&& (m - 1)) / 2 = m &&& (m - 1) := by omega
    rw [Nat.testBit_and, Nat.testBit_succ, Nat.testBit_succ, h1, h2,
      Nat.testBit_succ, h3, Nat.testBit_and]

theorem land_pred_odd (a : Nat) : (2 * a + 1) &&& (2 * a) = 2 * a := by
  apply Nat.eq_of_testBit_eq
  intro i
  cases i with
  | zero => simp [Nat.testBit_and, Nat.testBit_zero, Nat.mul_mod_right]
  | succ i =>
    have h1 : (2 * a + 1) / 2 = a := by omega
    have h2 : 2 * a / 2 = a := by omega
    rw [Nat.testBit_and, Nat.testBit_succ, Nat.testBit_succ, h1, h2, Bool.and_self]

theorem land_pred_eq_zero_iff : ∀ n, 1 ≤ n → ((n &&& (n - 1)) = 0 ↔ ∃ k, n = 2 ^ k) := by
  intro n
  induction n using Nat.strong_induction_on with
  | _ n ih =>
    intro hn
    rcases Nat.even_or_odd n with he | ho
    · obtain ⟨m, hm⟩ := he
      have hm2 : n = 2 * m := by omega
      have hm1 : 1 ≤ m := by omega
      subst hm2
      rw [land_pred_double m hm1]
      have ihm := ih m (by omega) hm1
      constructor
      · intro h0
        obtain ⟨k, hk⟩ := ihm.1 (by omega)
        exact ⟨k + 1, by rw [hk]; ring⟩
      · rintro ⟨k, hk⟩
        match k with
        | 0 => omega
        | k + 1 =>
          have : m = 2 ^ k := by
            have : 2 * m = 2 * 2 ^ k := by rw [hk]; ring
            omega
          have := ihm.2 ⟨k, this⟩
          omega
    · obtain ⟨a, ha⟩ := ho
      subst ha
      rcases Nat.eq_zero_or_pos a with h0 | hpos
      · subst h0
        constructor
        · intro _; exact ⟨0, by norm_num⟩
        · intro _; decide
      · have : (2 * a + 1) - 1 = 2 * a := by omega
        rw [this, land_pred_odd]
        constructor
        · intro h; omega
        · rintro ⟨k, hk⟩
          match k with
          | 0 => omega
          | k + 1 =>
            exfalso
            have : 2 * a + 1 = 2 * 2 ^ k := by rw [hk]; ring
            omega

theorem cb_pow2_iff (n : Nat) :
    cb_is_power_of_two n = true ↔ (2 ≤ n ∧ ∃ k, n = 2 ^ k) := by
  unfold cb_is_power_of_two
  rw [Bool.and_eq_true, decide_eq_true_iff, beq_iff_eq]
  constructor
  · rintro ⟨h2, h0⟩
    exact ⟨h2, (land_pred_eq_zero_iff n (by omega)).1 h0⟩
  · rintro ⟨h2, hk⟩
    exact ⟨h2, (land_pred_eq_zero_iff n (by omega)).2 hk⟩

end Circbuf

namespace Circbuf

theorem M_pos : 0 < M := by norm_num [M]

theorem cap_pow2 {cap : Nat} (h2 : 2 ≤ cap) (hdvd : cap ∣ M) : ∃ k, cap = 2 ^ k := by
  have hM : M = 2 ^ 32 := by norm_num [M]
  rw [hM] at hdvd
  obtain ⟨m, _, hm⟩ := (Nat.dvd_prime_pow Nat.prime_two).1 hdvd
  exact ⟨m, hm⟩

theorem mask_mod {cap : Nat} (h2 : 2 ≤ cap) (hdvd : cap ∣ M) (pos : Nat) :
    pos &&& (cap - 1) = pos % cap := by
  obtain ⟨k, hk⟩ := cap_pow2 h2 hdvd
  subst hk
  exact Nat.and_pow_two_sub_one_eq_mod pos k

theorem add_mod_inj {cap t a b : Nat} (hcap : 0 < cap) (ha : a < cap) (hb : b < cap)
    (h : (t + a) % cap = (t + b) % cap) : a = b := by
  have h2 : a % cap = b % cap := Nat.ModEq.add_left_cancel' t h
  rwa [Nat.mod_eq_of_lt ha, Nat.mod_eq_of_lt hb] at h2

theorem mul_add_mod_mul {cap Q x r : Nat} (hr : r < cap) (hQpos : 0 < Q) :
    (cap * x + r) % (cap * Q) = cap * (x % Q) + r := by
  conv_lhs => rw [← Nat.div_add_mod x Q]
  rw [Nat.mul_add, ← Nat.mul_assoc, Nat.add_assoc, Nat.mul_add_mod]
  apply Nat.mod_eq_of_lt
  calc cap * (x % Q) + r < cap * (x % Q) + cap := Nat.add_lt_add_left hr _
    _ = cap * (x % Q + 1) := by ring
    _ ≤ cap * Q := Nat.mul_le_mul le_rfl (by have := Nat.mod_lt x hQpos; omega)

theorem exists_lap {cap s p : Nat} (hdvd : cap ∣ M) (hcap : 0 < cap) (hs : s < M)
    (h : s % cap = p % cap) : ∃ n, s = (p + n * cap) % M := by
  obtain ⟨Q, hQ⟩ := hdvd
  have hQpos : 0 < Q := by
    rcases Nat.eq_zero_or_pos Q with h0 | h0
    · exfalso; have := M_pos; rw [hQ, h0, Nat.mul_zero] at this; omega
    · exact h0
  have hsM : s < cap * Q := by rw [← hQ]; exact hs
  have haQ : s / cap < Q := by
    rw [Nat.div_lt_iff_lt_mul hcap]
    calc s < cap * Q := hsM
      _ = Q * cap := Nat.mul_comm _ _
  set a := s / cap with hadef
  set b := (p / cap) % Q with hbdef
  have hbQ : b < Q := Nat.mod_lt _ hQpos
  refine ⟨(a + Q - b) % Q, ?_⟩
  set k := (a + Q - b) % Q with hkdef
  have hkQ : k < Q := Nat.mod_lt _ hQpos
  have hx : (p / cap + k) % Q = a := by
    rw [Nat.add_mod, ← hbdef, Nat.mod_eq_of_lt hkQ, hkdef, Nat.add_mod_mod]
    have hb2 : b + (a + Q - b) = a + Q :=
      Nat.add_sub_cancel' (le_trans (Nat.le_of_lt hbQ) (Nat.le_add_left Q a))
    rw [hb2, Nat.add_mod_right, Nat.mod_eq_of_lt haQ]
  have key : p + k * cap = cap * (p / cap + k) + p % cap := by
    rw [Nat.mul_add, Nat.mul_comm cap k]
    linarith [Nat.div_add_mod p cap]
  rw [key, hQ, mul_add_mod_mul (Nat.mod_lt _ hcap) hQpos, hx, ← h]
  exact (Nat.div_add_mod s cap).symm

end Circbuf

namespace Circbuf

theorem getD_append_lt {α : Type} {l l' : List α} {i : Nat} {d : α} (h : i < l.length) :
    (l ++ l').getD i d = l.getD i d := by
  simp [List.getD_eq_getElem?_getD, List.getElem?_append_left h]

theorem getD_append_len {α : Type} {l : List α} {e d : α} :
    (l ++ [e]).getD l.length d = e := by
  simp [List.getD_eq_getElem?_getD, List.getElem?_append_right (Nat.le_refl _)]

/-- The coupling invariant of the sequential SPSC model: the ring `cb` is a
well-formed representation of the abstract FIFO queue `q` of slot contents.
`q` lists the published-but-not-yet-released payloads, oldest first. -/
structure Inv (cb : CircBuf) (q : List (List Nat)) : Prop where
  cap2 : 2 ≤ cbCap cb
  capdvd : M % cbCap cb = 0
  capM : cbCap cb < M
  headM : cb.head < M
  tailM : cb.tail < M
  seqlen : cb.seqs.length = cbCap cb
  slotlen : cb.slots.length = cbCap cb
  slotsz : ∀ i, i < cbCap cb → (cb.slots.getD i []).length = cb.slot_size
  qsz : ∀ j, j < q.length → (q.getD j []).length = cb.slot_size
  qle : q.length ≤ cbCap cb
  hd : cb.head = (cb.tail + q.length) % M
  pub : ∀ j, j < q.length →
    cb.seqs.getD ((cb.tail + j) % cbCap cb) 0 = (cb.tail + j + 1) % M ∧
    cb.slots.getD ((cb.tail + j) % cbCap cb) [] = q.getD j []
  free : ∀ j, j < cbCap cb → q.length ≤ j →
    cb.seqs.getD ((cb.tail + j) % cbCap cb) 0 = (cb.tail + j) % M

theorem Inv.capdvd' {cb : CircBuf} {q : List (List Nat)} (h : Inv cb q) :
    cbCap cb ∣ M := Nat.dvd_of_mod_eq_zero h.capdvd

theorem Inv.cap_pos {cb : CircBuf} {q : List (List Nat)} (h : Inv cb q) :
    0 < cbCap cb := by have := h.cap2; omega

/-- On a ring with room, the SPSC push claim succeeds, returning the current
head and advancing it. -/
theorem cb_push_claim_ok {cb : CircBuf} {q : List (List Nat)} (hInv : Inv cb q)
    (hroom : q.length < cbCap cb) :
    cb_push_claim cb = some (cb.head, { cb with head := (cb.head + 1) % M }) := by
  have hmask : cb.mask = cbCap cb - 1 := by unfold cbCap; omega
  have hidx : cb_slot_index cb cb.head = (cb.tail + q.length) % cbCap cb := by
    unfold cb_slot_index
    rw [hmask, mask_mod hInv.cap2 hInv.capdvd', hInv.hd, Nat.mod_mod_of_dvd _ hInv.capdvd']
  have hseq : cb.seqs.getD ((cb.tail + q.length) % cbCap cb) 0 = cb.head := by
    rw [hInv.hd]
    exact hInv.free q.length hroom (Nat.le_refl _)
  unfold cb_push_claim
  simp only [hidx, hseq, ne_eq, not_true_eq_false, if_false, ite_false]

end Circbuf

namespace Circbuf

/-- A successful `cb_push` on a ring with room: return value 0 and the exact
resulting state (head advanced, `size` bytes copied into the claimed slot,
slot sequence bumped to `pos + 1`). -/
theorem cb_push_ok {cb : CircBuf} {q : List (List Nat)} {data : List Nat} {size : Nat}
    (hInv : Inv cb q) (hroom : q.length < cbCap cb) (hsz : size ≤ cb.slot_size) :
    cb_push cb data size =
      (0, { cb with
              head := (cb.head + 1) % M,
              slots := cb.slots.set ((cb.tail + q.length) % cbCap cb)
                (data.take size ++ (cb.slots.getD ((cb.tail + q.length) % cbCap cb) []).drop size),
              seqs := cb.seqs.set ((cb.tail + q.length) % cbCap cb) ((cb.head + 1) % M) }) := by
  have hclaim := cb_push_claim_ok hInv hroom
  have hidxraw : cb.head &&& cb.mask = (cb.tail + q.length) % cbCap cb := by
    have hmask : cb.mask = cbCap cb - 1 := by unfold cbCap; omega
    rw [hmask, mask_mod hInv.cap2 hInv.capdvd', hInv.hd, Nat.mod_mod_of_dvd _ hInv.capdvd']
  unfold cb_push cb_push_publish cb_slot_index
  rw [if_neg (by omega), hclaim]
  simp only [hidxraw]

end Circbuf

namespace Circbuf

/-- Pushing onto a ring with room preserves the coupling invariant, with the
new slot content appended to the abstract queue. -/
theorem Inv_push {cb : CircBuf} {q : List (List Nat)} {data : List Nat} {size : Nat}
    (hInv : Inv cb q) (hroom : q.length < cbCap cb) (hsz : size ≤ cb.slot_size)
    (hdata : size ≤ data.length) :
    Inv { cb with
            head := (cb.head + 1) % M,
            slots := cb.slots.set ((cb.tail + q.length) % cbCap cb)
              (data.take size ++ (cb.slots.getD ((cb.tail + q.length) % cbCap cb) []).drop size),
            seqs := cb.seqs.set ((cb.tail + q.length) % cbCap cb) ((cb.head + 1) % M) }
        (q ++ [data.take size ++ (cb.slots.getD ((cb.tail + q.length) % cbCap cb) []).drop size]) := by
  have hcap0 : 0 < cbCap cb := hInv.cap_pos
  set cap := cbCap cb with hcapdef
  set idx := (cb.tail + q.length) % cap with hidxdef
  set e := data.take size ++ (cb.slots.getD idx []).drop size with hedef
  have hidxlt : idx < cap := Nat.mod_lt _ hcap0
  have hidxlt' : idx < cb.seqs.length := by rw [hInv.seqlen]; exact hidxlt
  have hidxlt'' : idx < cb.slots.length := by rw [hInv.slotlen]; exact hidxlt
  have hne : ∀ j, j < cap → j ≠ q.length → (cb.tail + j) % cap ≠ idx := by
    intro j hj hjL heq
    rw [hidxdef] at heq
    exact hjL (add_mod_inj hcap0 hj hroom heq)
  have helen : e.length = cb.slot_size := by
    rw [hedef, List.length_append, List.length_take, List.length_drop,
      hInv.slotsz _ hidxlt]
    omega
  have hqlen : (q ++ [e]).length = q.length + 1 := by simp
  have h6 : (cb.seqs.set idx ((cb.head + 1) % M)).length = cap := by
    rw [List.length_set]; exact hInv.seqlen
  have h7 : (cb.slots.set idx e).length = cap := by
    rw [List.length_set]; exact hInv.slotlen
  have h8 : ∀ i, i < cap → ((cb.slots.set idx e).getD i []).length = cb.slot_size := by
    intro i hi
    rcases Decidable.eq_or_ne idx i with heq | hne2
    · rw [← heq, getD_set_self hidxlt'']
      exact helen
    · rw [getD_set_ne hne2]
      exact hInv.slotsz i hi
  have h9 : ∀ j, j < (q ++ [e]).length → ((q ++ [e]).getD j []).length = cb.slot_size := by
    intro j hj
    rw [hqlen] at hj
    rcases Nat.lt_or_ge j q.length with hjL | hjL
    · rw [getD_append_lt hjL]
      exact hInv.qsz j hjL
    · have hjeq : j = q.length := by omega
      subst hjeq
      rw [getD_append_len]
      exact helen
  have h10 : (q ++ [e]).length ≤ cap := by rw [hqlen]; omega
  have h11 : (cb.head + 1) % M = (cb.tail + (q ++ [e]).length) % M := by
    rw [hInv.hd, Nat.mod_add_mod, hqlen, ← Nat.add_assoc]
  have h12 : ∀ j, j < (q ++ [e]).length →
      (cb.seqs.set idx ((cb.head + 1) % M)).getD ((cb.tail + j) % cap) 0 = (cb.tail + j + 1) % M ∧
      (cb.slots.set idx e).getD ((cb.tail + j) % cap) [] = (q ++ [e]).getD j [] := by
    intro j hj
    rw [hqlen] at hj
    rcases Nat.lt_or_ge j q.length with hjL | hjL
    · have hne3 := hne j (by omega) (by omega)
      rw [getD_set_ne (Ne.symm hne3), getD_set_ne (Ne.symm hne3), getD_append_lt hjL]
      exact hInv.pub j hjL
    · have hjeq : j = q.length := by omega
      subst hjeq
      constructor
      · rw [hidxdef, getD_set_self hidxlt', hInv.hd, Nat.mod_add_mod]
      · rw [hidxdef, getD_set_self hidxlt'']
        rw [getD_append_len]
  have h13 : ∀ j, j < cap → (q ++ [e]).length ≤ j →
      (cb.seqs.set idx ((cb.head + 1) % M)).getD ((cb.tail + j) % cap) 0 = (cb.tail + j) % M := by
    intro j hj hLj
    rw [hqlen] at hLj
    rw [getD_set_ne (Ne.symm (hne j hj (by omega)))]
    exact hInv.free j hj (by omega)
  exact Inv.mk hInv.cap2 hInv.capdvd hInv.capM (Nat.mod_lt _ M_pos) hInv.tailM
    h6 h7 h8 h9 h10 h11 h12 h13

end Circbuf

namespace Circbuf

theorem M_two : 2 ≤ M := by norm_num [M]

/-- Calling `cb_push` on a full ring: the claim fails and `-1` ("would block") is
returned with the state unchanged. -/
theorem cb_push_full {cb : CircBuf} {q : List (List Nat)} (data : List Nat) (size : Nat)
    (hInv : Inv cb q) (hfull : q.length = cbCap cb) (hsz : size ≤ cb.slot_size) :
    cb_push cb data size = (-1, cb) := by
  have hcap0 : 0 < cbCap cb := hInv.cap_pos
  have hmask : cb.mask = cbCap cb - 1 := by unfold cbCap; omega
  have hidx : cb.head &&& cb.mask = (cb.tail + 0) % cbCap cb := by
    rw [hmask, mask_mod hInv.cap2 hInv.capdvd', hInv.hd, Nat.mod_mod_of_dvd _ hInv.capdvd',
      hfull, Nat.add_mod_right, Nat.add_zero]
  have hseq := (hInv.pub 0 (by omega)).1
  have hneq : (cb.tail + 0 + 1) % M ≠ cb.head := by
    rw [hInv.hd, Nat.add_zero]
    intro heq
    have h1M : 1 < M := by have := M_two; omega
    have h12 := @add_mod_inj M cb.tail 1 q.length M_pos h1M (by rw [hfull]; exact hInv.capM) heq
    have hc2 := hInv.cap2
    omega
  have hclaim : cb_push_claim cb = none := by
    simp only [cb_push_claim, cb_slot_index, hidx, hseq]
    rw [if_pos hneq]
  simp only [cb_push]
  rw [if_neg (by omega), hclaim]

/-- A successful `cb_pop` on a nonempty ring: return value 0, the first
`size` bytes of the oldest slot content, and the exact resulting state. -/
theorem cb_pop_ok {cb : CircBuf} {e : List Nat} {q' : List (List Nat)} {size : Nat}
    (hInv : Inv cb (e :: q')) (hsz : size ≤ cb.slot_size) :
    cb_pop cb size =
      (0, e.take size,
        { cb with
            tail := (cb.tail + 1) % M,
            seqs := cb.seqs.set (cb.tail % cbCap cb) ((cb.tail + cb.mask + 1) % M) }) := by
  have hmask : cb.mask = cbCap cb - 1 := by unfold cbCap; omega
  have hidx : cb.tail &&& cb.mask = cb.tail % cbCap cb := by
    rw [hmask, mask_mod hInv.cap2 hInv.capdvd']
  have hseq : cb.seqs.getD (cb.tail % cbCap cb) 0 = (cb.tail + 1) % M := by
    simpa using (hInv.pub 0 (by simp)).1
  have hslot' : cb.slots.getD (cb.tail % cbCap cb) [] = e := by
    simpa using (hInv.pub 0 (by simp)).2
  have hclaim : cb_pop_claim cb = some (cb.tail, { cb with tail := (cb.tail + 1) % M }) := by
    simp only [cb_pop_claim, cb_slot_index, hidx, hseq]
    simp
  simp only [cb_pop]
  rw [if_neg (by omega), hclaim]
  simp only [cb_pop_release, cb_slot_index, hidx, hslot']

/-- Calling `cb_pop` on an empty ring: the claim fails and `-1` ("would block") is
returned with the state unchanged. -/
theorem cb_pop_empty {cb : CircBuf} {size : Nat} (hInv : Inv cb []) (hsz : size ≤ cb.slot_size) :
    cb_pop cb size = (-1, [], cb) := by
  have hcap0 : 0 < cbCap cb := hInv.cap_pos
  have hmask : cb.mask = cbCap cb - 1 := by unfold cbCap; omega
  have hidx : cb.tail &&& cb.mask = cb.tail % cbCap cb := by
    rw [hmask, mask_mod hInv.cap2 hInv.capdvd']
  have hseq : cb.seqs.getD (cb.tail % cbCap cb) 0 = cb.tail := by
    have h0 := hInv.free 0 (by omega) (by simp)
    simpa [Nat.mod_eq_of_lt hInv.tailM] using h0
  have hneq : cb.tail ≠ (cb.tail + 1) % M := by
    rcases Nat.lt_or_ge (cb.tail + 1) M with h | h
    · rw [Nat.mod_eq_of_lt h]; omega
    · have htm : cb.tail + 1 = M := by have := hInv.tailM; omega
      rw [htm, Nat.mod_self]
      have := M_two; omega
  have hclaim : cb_pop_claim cb = none := by
    simp only [cb_pop_claim, cb_slot_index, hidx, hseq]
    rw [if_pos hneq]
  simp only [cb_pop]
  rw [if_neg (by omega), hclaim]

end Circbuf

namespace Circbuf

/-- Popping from a nonempty ring preserves the coupling invariant, with the
oldest entry removed from the abstract queue. -/
theorem Inv_pop {cb : CircBuf} {e : List Nat} {q' : List (List Nat)}
    (hInv : Inv cb (e :: q')) :
    Inv { cb with
            tail := (cb.tail + 1) % M,
            seqs := cb.seqs.set (cb.tail % cbCap cb) ((cb.tail + cb.mask + 1) % M) } q' := by
  have hcap0 : 0 < cbCap cb := hInv.cap_pos
  have hc2 : 2 ≤ cbCap cb := hInv.cap2
  have hmask : cb.mask = cbCap cb - 1 := by unfold cbCap; omega
  have hLq : (e :: q').length = q'.length + 1 := by simp
  have hL : q'.length + 1 ≤ cbCap cb := by rw [← hLq]; exact hInv.qle
  set cap := cbCap cb with hcapdef
  set t := cb.tail with htdef
  have hidx0lt : t % cap < cb.seqs.length := by
    rw [hInv.seqlen]; exact Nat.mod_lt _ hcap0
  have hmc : ∀ a b : Nat, (a % M + b) % cap = (a + b) % cap := by
    intro a b
    conv_lhs => rw [Nat.add_mod]
    rw [Nat.mod_mod_of_dvd _ hInv.capdvd', ← Nat.add_mod]
  have hmm : ∀ a b : Nat, (a % M + b) % M = (a + b) % M := by
    intro a b
    rw [Nat.mod_add_mod]
  have hne' : ∀ a, a < cap → a ≠ 0 → (t + a) % cap ≠ t % cap := by
    intro a ha h0 heq
    have heq2 : (t + a) % cap = (t + 0) % cap := by
      rw [Nat.add_zero]; exact heq
    exact h0 (add_mod_inj hcap0 ha (by omega) heq2)
  have h6 : (cb.seqs.set (t % cap) ((t + cb.mask + 1) % M)).length = cap := by
    rw [List.length_set]; exact hInv.seqlen
  have h9 : ∀ j, j < q'.length → (q'.getD j []).length = cb.slot_size := by
    intro j hj
    have := hInv.qsz (j + 1) (by omega)
    simpa using this
  have h10 : q'.length ≤ cap := by omega
  have h11 : cb.head = ((t + 1) % M + q'.length) % M := by
    rw [hInv.hd, hLq, hmm]
    congr 1
    omega
  have h12 : ∀ j, j < q'.length →
      (cb.seqs.set (t % cap) ((t + cb.mask + 1) % M)).getD (((t + 1) % M + j) % cap) 0 =
        ((t + 1) % M + j + 1) % M ∧
      cb.slots.getD (((t + 1) % M + j) % cap) [] = q'.getD j [] := by
    intro j hj
    have hidx : ((t + 1) % M + j) % cap = (t + (j + 1)) % cap := by
      rw [hmc]; congr 1; omega
    have hval : ((t + 1) % M + j + 1) % M = (t + (j + 1) + 1) % M := by
      rw [Nat.add_assoc, hmm]; congr 1; omega
    have hpub := hInv.pub (j + 1) (by omega)
    rw [hidx, hval, getD_set_ne (Ne.symm (hne' (j + 1) (by omega) (by omega)))]
    refine ⟨hpub.1, ?_⟩
    rw [hpub.2]
    simp
  have h13 : ∀ j, j < cap → q'.length ≤ j →
      (cb.seqs.set (t % cap) ((t + cb.mask + 1) % M)).getD (((t + 1) % M + j) % cap) 0 =
        ((t + 1) % M + j) % M := by
    intro j hj hLj
    have hidx : ((t + 1) % M + j) % cap = (t + (j + 1)) % cap := by
      rw [hmc]; congr 1; omega
    have hval2 : ((t + 1) % M + j) % M = (t + (j + 1)) % M := by
      rw [hmm]; congr 1; omega
    rcases Nat.lt_or_ge (j + 1) cap with hlt | hge
    · rw [hidx, hval2, getD_set_ne (Ne.symm (hne' (j + 1) hlt (by omega)))]
      exact hInv.free (j + 1) hlt (by omega)
    · have hjeq : j + 1 = cap := by omega
      have hidxeq : (t + (j + 1)) % cap = t % cap := by
        rw [hjeq, Nat.add_mod_right]
      rw [hidx, hidxeq, hval2, getD_set_self hidx0lt]
      congr 1
      omega
  exact Inv.mk hInv.cap2 hInv.capdvd hInv.capM hInv.headM (Nat.mod_lt _ M_pos)
    h6 hInv.slotlen hInv.slotsz h9 h10 h11 h12 h13

end Circbuf

namespace Circbuf

/-- Successful `cb_init`: valid arguments and a successful allocation yield
return value 0, one allocation, and the documented fresh ring state. -/
theorem cb_init_ok {old : CircBuf} {hf : Bool} {capacity slot_size : Nat}
    {mem : Nat → Nat → Nat}
    (hcap : cb_is_power_of_two capacity = true) (hss : slot_size ≠ 0) :
    cb_init old true true hf true capacity slot_size mem =
      (0, { slot_size := slot_size, mask := capacity - 1, slotsNull := false,
            hasFree := hf, head := 0, tail := 0,
            seqs := List.range capacity,
            slots := (List.range capacity).map (fun i => (List.range slot_size).map (mem i)) },
        1) := by
  unfold cb_init
  simp [hcap, hss]

/-- The fresh ring produced by a successful `cb_init` satisfies the coupling
invariant with the empty abstract queue. -/
theorem Inv_init {hf : Bool} {capacity slot_size : Nat} {mem : Nat → Nat → Nat}
    (hcap : cb_is_power_of_two capacity = true) (hcapM : capacity < M) :
    Inv { slot_size := slot_size, mask := capacity - 1, slotsNull := false,
          hasFree := hf, head := 0, tail := 0,
          seqs := List.range capacity,
          slots := (List.range capacity).map (fun i => (List.range slot_size).map (mem i)) }
        ([] : List (List Nat)) := by
  obtain ⟨hc2, k, hk⟩ := (cb_pow2_iff capacity).1 hcap
  have hce : capacity - 1 + 1 = capacity := by omega
  have hdvd : capacity ∣ M := by
    have hMk : M = 2 ^ 32 := by norm_num [M]
    have hklt : k < 32 := by
      by_contra hge
      have : (2:Nat) ^ 32 ≤ 2 ^ k := Nat.pow_le_pow_right (by omega) (by omega)
      omega
    rw [hk, hMk]
    exact Nat.pow_dvd_pow 2 (by omega)
  have hmod : M % capacity = 0 := Nat.mod_eq_zero_of_dvd hdvd
  have hslotget : ∀ i, i < capacity →
      (((List.range capacity).map (fun i => (List.range slot_size).map (mem i))).getD i []) =
        (List.range slot_size).map (mem i) := by
    intro i hi
    simp [List.getD_eq_getElem?_getD, List.getElem?_map, List.getElem?_range hi]
  refine Inv.mk ?_ ?_ ?_ ?_ ?_ ?_ ?_ ?_ ?_ ?_ ?_ ?_ ?_ <;> dsimp only [cbCap]
  · omega
  · rw [hce]; exact hmod
  · rw [hce]; exact hcapM
  · exact M_pos
  · exact M_pos
  · rw [hce]; exact List.length_range capacity
  · rw [hce]; simp
  · intro i hi
    rw [hce] at hi
    rw [hslotget i hi]
    simp
  · intro j hj
    simp at hj
  · simp
  · simp
  · intro j hj
    simp at hj
  · intro j hj _
    rw [hce] at hj ⊢
    rw [Nat.zero_add, Nat.mod_eq_of_lt hj, getD_range hj,
      Nat.mod_eq_of_lt (by omega)]

end Circbuf

namespace Circbuf

/-- Convenient bundled form of a successful push. -/
theorem cb_push_step {cb : CircBuf} {q : List (List Nat)} (data : List Nat) (size : Nat)
    (hInv : Inv cb q) (hroom : q.length < cbCap cb) (hsz : size ≤ cb.slot_size)
    (hdata : size ≤ data.length) :
    (cb_push cb data size).1 = 0 ∧
    Inv (cb_push cb data size).2
      (q ++ [data.take size ++ (cb.slots.getD ((cb.tail + q.length) % cbCap cb) []).drop size]) ∧
    (cb_push cb data size).2.slot_size = cb.slot_size ∧
    (cb_push cb data size).2.mask = cb.mask := by
  rw [cb_push_ok hInv hroom hsz]
  exact ⟨rfl, Inv_push hInv hroom hsz hdata, rfl, rfl⟩

/-- A successful full-slot push appends exactly the pushed payload to the
abstract queue. -/
theorem cb_push_step_full {cb : CircBuf} {q : List (List Nat)} {data : List Nat}
    (hInv : Inv cb q) (hroom : q.length < cbCap cb) (hdata : data.length = cb.slot_size) :
    (cb_push cb data cb.slot_size).1 = 0 ∧
    Inv (cb_push cb data cb.slot_size).2 (q ++ [data]) ∧
    (cb_push cb data cb.slot_size).2.slot_size = cb.slot_size ∧
    (cb_push cb data cb.slot_size).2.mask = cb.mask := by
  have h1 : data.take cb.slot_size = data := by
    rw [← hdata]; exact List.take_length data
  have h2 : (cb.slots.getD ((cb.tail + q.length) % cbCap cb) []).drop cb.slot_size = [] := by
    apply List.drop_eq_nil_of_le
    rw [hInv.slotsz _ (Nat.mod_lt _ hInv.cap_pos)]
  have h := cb_push_step data cb.slot_size hInv hroom (Nat.le_refl _) (Nat.le_of_eq hdata.symm)
  rw [h1, h2, List.append_nil] at h
  exact h

/-- Convenient bundled form of a successful pop. -/
theorem cb_pop_step {cb : CircBuf} {e : List Nat} {q' : List (List Nat)} (size : Nat)
    (hInv : Inv cb (e :: q')) (hsz : size ≤ cb.slot_size) :
    (cb_pop cb size).1 = 0 ∧ (cb_pop cb size).2.1 = e.take size ∧
    Inv (cb_pop cb size).2.2 q' ∧
    (cb_pop cb size).2.2.slot_size = cb.slot_size ∧
    (cb_pop cb size).2.2.mask = cb.mask := by
  rw [cb_pop_ok hInv hsz]
  exact ⟨rfl, rfl, Inv_pop hInv, rfl, rfl⟩

/-- A successful full-slot pop returns exactly the oldest queue entry. -/
theorem cb_pop_step_full {cb : CircBuf} {e : List Nat} {q' : List (List Nat)}
    (hInv : Inv cb (e :: q')) :
    (cb_pop cb cb.slot_size).1 = 0 ∧ (cb_pop cb cb.slot_size).2.1 = e ∧
    Inv (cb_pop cb cb.slot_size).2.2 q' ∧
    (cb_pop cb cb.slot_size).2.2.slot_size = cb.slot_size ∧
    (cb_pop cb cb.slot_size).2.2.mask = cb.mask := by
  have helen : e.length = cb.slot_size := by
    have := hInv.qsz 0 (by simp)
    simpa using this
  have htake : e.take cb.slot_size = e := by
    rw [← helen]; exact List.take_length e
  have h := cb_pop_step cb.slot_size hInv (Nat.le_refl _)
  rw [htake] at h
  exact h

end Circbuf

namespace Circbuf

/-- Running any operation sequence from a state coupled to queue `q` yields a
state coupled to some queue `q'` with `popped ++ q' = q ++ pushed`: the
successfully popped payloads followed by the leftover queue are exactly the
old queue followed by the successfully pushed payloads, in order. -/
theorem runOps_spec : ∀ (ops : List CbOp) (cb : CircBuf) (q : List (List Nat)),
    Inv cb q → (∀ d, CbOp.push d ∈ ops → d.length = cb.slot_size) →
    ∃ q', Inv (runOps ops cb).1 q' ∧
      (runOps ops cb).2.2 ++ q' = q ++ (runOps ops cb).2.1 := by
  intro ops
  induction ops with
  | nil =>
    intro cb q hInv _
    exact ⟨q, hInv, by simp [runOps]⟩
  | cons op rest ih =>
    intro cb q hInv hlen
    cases op with
    | push d =>
      have hd : d.length = cb.slot_size := hlen d (by simp)
      rcases Nat.lt_or_ge q.length (cbCap cb) with hroom | hfullge
      · obtain ⟨hr0, hInv1, hss, _⟩ := cb_push_step_full hInv hroom hd
        obtain ⟨q', hI, hEq⟩ := ih (cb_push cb d cb.slot_size).2 (q ++ [d]) hInv1
          (fun d' hm => by rw [hss]; exact hlen d' (by simp [hm]))
        refine ⟨q', ?_, ?_⟩ <;> simp only [runOps, hr0, if_pos]
        · exact hI
        · rw [hEq]
          simp
      · have hfull : q.length = cbCap cb := Nat.le_antisymm hInv.qle hfullge
        have hr := cb_push_full d cb.slot_size hInv hfull (Nat.le_refl _)
        obtain ⟨q', hI, hEq⟩ := ih cb q hInv (fun d' hm => hlen d' (by simp [hm]))
        refine ⟨q', ?_, ?_⟩ <;> simp only [runOps, hr] <;> norm_num
        · exact hI
        · exact hEq
    | pop =>
      cases q with
      | nil =>
        have hr := cb_pop_empty hInv (Nat.le_refl _)
        obtain ⟨q', hI, hEq⟩ := ih cb [] hInv (fun d' hm => hlen d' (by simp [hm]))
        refine ⟨q', ?_, ?_⟩ <;> simp only [runOps, hr] <;> norm_num
        · exact hI
        · exact hEq
      | cons e qt =>
        obtain ⟨hr0, hout, hInv1, hss, _⟩ := cb_pop_step_full hInv
        obtain ⟨q', hI, hEq⟩ := ih (cb_pop cb cb.slot_size).2.2 qt hInv1
          (fun d' hm => by rw [hss]; exact hlen d' (by simp [hm]))
        refine ⟨q', ?_, ?_⟩ <;> simp only [runOps, hr0, hout, if_pos]
        · exact hI
        · rw [List.cons_append, hEq]
          simp

end Circbuf

namespace Circbuf

/-- Any `n` consecutive pushes on a ring with at least `n` free slots all succeed
and append the pushed payloads to the abstract queue in order. -/
theorem pushN_spec : ∀ (n i : Nat) (cb : CircBuf) (q : List (List Nat))
    (payload : Nat → List Nat), Inv cb q →
    (∀ j, (payload j).length = cb.slot_size) → q.length + n ≤ cbCap cb →
    ∃ cb', pushN payload i n cb = some cb' ∧
      Inv cb' (q ++ (List.range n).map (fun j => payload (i + j))) ∧
      cb'.slot_size = cb.slot_size ∧ cb'.mask = cb.mask := by
  intro n
  induction n with
  | zero =>
    intro i cb q payload hInv hlen _
    exact ⟨cb, rfl, by simpa using hInv, rfl, rfl⟩
  | succ n ih =>
    intro i cb q payload hInv hlen hn
    obtain ⟨hr0, hInv1, hss, hmk⟩ := cb_push_step_full hInv (by omega) (hlen i)
    have hcap1 : cbCap (cb_push cb (payload i) cb.slot_size).2 = cbCap cb := by
      unfold cbCap; rw [hmk]
    obtain ⟨cb', hrun, hI, hss', hmk'⟩ := ih (i + 1) (cb_push cb (payload i) cb.slot_size).2
      (q ++ [payload i]) payload hInv1 (fun j => by rw [hss]; exact hlen j)
      (by rw [hcap1]; simp; omega)
    refine ⟨cb', ?_, ?_, by rw [hss', hss], by rw [hmk', hmk]⟩
    · simp only [pushN, hr0, if_pos]
      exact hrun
    · have hfun : (fun j => payload (i + 1 + j)) = ((fun j => payload (i + j)) ∘ Nat.succ) := by
        funext j
        simp only [Function.comp_apply]
        congr 1
        omega
      have hqeq : (q ++ [payload i]) ++ (List.range n).map (fun j => payload (i + 1 + j)) =
          q ++ (List.range (n + 1)).map (fun j => payload (i + j)) := by
        rw [List.append_assoc, List.range_succ_eq_map, List.map_cons, List.map_map,
          List.singleton_append, hfun]
        simp
      rw [← hqeq]
      exact hI

/-- Alternating push/pop round trips: starting from an empty ring, every
round succeeds and every pop returns the payload pushed in that round. -/
theorem roundTrips_spec : ∀ (n i : Nat) (cb : CircBuf) (payload : Nat → List Nat),
    Inv cb [] → (∀ j, (payload j).length = cb.slot_size) →
    roundTrips payload i n cb = true := by
  intro n
  induction n with
  | zero => intro i cb payload _ _; rfl
  | succ n ih =>
    intro i cb payload hInv hlen
    obtain ⟨hr0, hInv1, hss, _⟩ := cb_push_step_full hInv (by simpa using hInv.cap_pos) (hlen i)
    rw [List.nil_append] at hInv1
    obtain ⟨hp0, hout, hInv2, hss2, _⟩ := cb_pop_step_full hInv1
    have hrec := ih (i + 1)
      (cb_pop (cb_push cb (payload i) cb.slot_size).2
        (cb_push cb (payload i) cb.slot_size).2.slot_size).2.2 payload hInv2
      (fun j => by rw [hss2, hss]; exact hlen j)
    simp only [roundTrips, hr0, hp0, hout, hrec]
    simp
end Circbuf

namespace Circbuf

/-- The per-slot lap invariant underlying claim C1: every slot's sequence
number is, modulo the capacity, equal to its index (free for some lap) or to
its index plus one (published for some lap). -/
def SeqInv (cb : CircBuf) : Prop :=
  2 ≤ cbCap cb ∧ M % cbCap cb = 0 ∧ cbCap cb < M ∧ cb.seqs.length = cbCap cb ∧
  ∀ i, i < cbCap cb → cb.seqs.getD i 0 < M ∧
    (cb.seqs.getD i 0 % cbCap cb = i ∨ cb.seqs.getD i 0 % cbCap cb = (i + 1) % cbCap cb)

theorem cb_push_claim_fields {cb cb' : CircBuf} {pos : Nat}
    (h : cb_push_claim cb = some (pos, cb')) : cb'.seqs = cb.seqs ∧ cb'.mask = cb.mask := by
  unfold cb_push_claim at h
  by_cases hc : cb.seqs.getD (cb_slot_index cb cb.head) 0 ≠ cb.head
  · rw [if_pos hc] at h
    exact absurd h (by simp)
  · rw [if_neg hc] at h
    simp only [Option.some.injEq, Prod.mk.injEq] at h
    rw [← h.2]
    exact ⟨rfl, rfl⟩

theorem cb_pop_claim_fields {cb cb' : CircBuf} {pos : Nat}
    (h : cb_pop_claim cb = some (pos, cb')) : cb'.seqs = cb.seqs ∧ cb'.mask = cb.mask := by
  unfold cb_pop_claim at h
  by_cases hc : cb.seqs.getD (cb_slot_index cb cb.tail) 0 ≠ (cb.tail + 1) % M
  · rw [if_pos hc] at h
    exact absurd h (by simp)
  · rw [if_neg hc] at h
    simp only [Option.some.injEq, Prod.mk.injEq] at h
    rw [← h.2]
    exact ⟨rfl, rfl⟩

/-- A claim changes only the head or tail counter, so it preserves `SeqInv`. -/
theorem SeqInv_claim_pres {c c' : CircBuf} (hS : SeqInv c) (hseqs : c'.seqs = c.seqs)
    (hmk : c'.mask = c.mask) : SeqInv c' := by
  obtain ⟨hc2, hdvd, hcM, hlen, hslot⟩ := hS
  have hcap : cbCap c' = cbCap c := by unfold cbCap; rw [hmk]
  exact ⟨by rw [hcap]; exact hc2, by rw [hcap]; exact hdvd, by rw [hcap]; exact hcM,
    by rw [hcap, hseqs]; exact hlen, by rw [hcap, hseqs]; exact hslot⟩

/-- Publishing any 32-bit position preserves `SeqInv`. -/
theorem SeqInv_publish_pres {c : CircBuf} (pos : Nat) (hS : SeqInv c) :
    SeqInv (cb_push_publish c pos) := by
  obtain ⟨hc2, hdvd, hcM, hlen, hslot⟩ := hS
  have hdvd' : cbCap c ∣ M := Nat.dvd_of_mod_eq_zero hdvd
  have hmask : c.mask = cbCap c - 1 := by unfold cbCap; omega
  have hidx : cb_slot_index c pos = pos % cbCap c := by
    unfold cb_slot_index
    rw [hmask, mask_mod hc2 hdvd']
  have hcapp : cbCap (cb_push_publish c pos) = cbCap c := rfl
  have hseqp : (cb_push_publish c pos).seqs =
      c.seqs.set (cb_slot_index c pos) ((pos + 1) % M) := rfl
  refine ⟨hc2, hdvd, hcM, ?_, ?_⟩
  · rw [hcapp, hseqp, List.length_set]; exact hlen
  · intro i hi
    rw [hcapp] at hi
    rw [hseqp, hcapp]
    rcases Decidable.eq_or_ne (cb_slot_index c pos) i with heq | hne2
    · rw [← heq, getD_set_self (by rw [hlen, hidx]; exact Nat.mod_lt _ (by omega))]
      refine ⟨Nat.mod_lt _ M_pos, Or.inr ?_⟩
      rw [hidx, Nat.mod_mod_of_dvd _ hdvd', Nat.add_mod pos 1,
        Nat.mod_eq_of_lt (show 1 < cbCap c by omega)]
    · rw [getD_set_ne hne2]
      exact hslot i hi

/-- Releasing any 32-bit position preserves `SeqInv`. -/
theorem SeqInv_release_pres {c : CircBuf} (pos : Nat) (hS : SeqInv c) :
    SeqInv (cb_pop_release c pos) := by
  obtain ⟨hc2, hdvd, hcM, hlen, hslot⟩ := hS
  have hdvd' : cbCap c ∣ M := Nat.dvd_of_mod_eq_zero hdvd
  have hmask : c.mask = cbCap c - 1 := by unfold cbCap; omega
  have hidx : cb_slot_index c pos = pos % cbCap c := by
    unfold cb_slot_index
    rw [hmask, mask_mod hc2 hdvd']
  have hcapp : cbCap (cb_pop_release c pos) = cbCap c := rfl
  have hseqp : (cb_pop_release c pos).seqs =
      c.seqs.set (cb_slot_index c pos) ((pos + c.mask + 1) % M) := rfl
  have hpc : pos + c.mask + 1 = pos + cbCap c := by rw [hmask]; omega
  refine ⟨hc2, hdvd, hcM, ?_, ?_⟩
  · rw [hcapp, hseqp, List.length_set]; exact hlen
  · intro i hi
    rw [hcapp] at hi
    rw [hseqp, hcapp]
    rcases Decidable.eq_or_ne (cb_slot_index c pos) i with heq | hne2
    · rw [← heq, getD_set_self (by rw [hlen, hidx]; exact Nat.mod_lt _ (by omega))]
      refine ⟨Nat.mod_lt _ M_pos, Or.inl ?_⟩
      rw [hidx, Nat.mod_mod_of_dvd _ hdvd', hpc, Nat.add_mod_right]
    · rw [getD_set_ne hne2]
      exact hslot i hi

end Circbuf

namespace Circbuf

/-- Every protocol step preserves the per-slot lap invariant. -/
theorem SeqInv_step {cb cb' : CircBuf} (hS : SeqInv cb) (hstep : Step cb cb') : SeqInv cb' := by
  cases hstep with
  | push_claim a pos h =>
    exact SeqInv_claim_pres hS (cb_push_claim_fields h).1 (cb_push_claim_fields h).2
  | pop_claim a pos h =>
    exact SeqInv_claim_pres hS (cb_pop_claim_fields h).1 (cb_pop_claim_fields h).2
  | push_publish pos hpos => exact SeqInv_publish_pres pos hS
  | pop_release pos hpos => exact SeqInv_release_pres pos hS

end Circbuf

namespace Circbuf

/-- Reachability preserves the per-slot lap invariant. -/
theorem SeqInv_reach {cb cb' : CircBuf} (hS : SeqInv cb) (hreach : Reach cb cb') :
    SeqInv cb' := by
  induction hreach with
  | refl => exact hS
  | step b c h1 h2 ih => exact SeqInv_step ih h2

/-- The fresh ring produced by `cb_init` satisfies the per-slot lap invariant. -/
theorem SeqInv_init {hf : Bool} {capacity slot_size : Nat} {mem : Nat → Nat → Nat}
    (hcap : cb_is_power_of_two capacity = true) (hcapM : capacity < M) :
    SeqInv { slot_size := slot_size, mask := capacity - 1, slotsNull := false,
             hasFree := hf, head := 0, tail := 0,
             seqs := List.range capacity,
             slots := (List.range capacity).map (fun i => (List.range slot_size).map (mem i)) } := by
  obtain ⟨hc2, k, hk⟩ := (cb_pow2_iff capacity).1 hcap
  have hce : capacity - 1 + 1 = capacity := by omega
  have hdvd : capacity ∣ M := by
    have hMk : M = 2 ^ 32 := by norm_num [M]
    have hklt : k < 32 := by
      by_contra hge
      have : (2:Nat) ^ 32 ≤ 2 ^ k := Nat.pow_le_pow_right (by omega) (by omega)
      omega
    rw [hk, hMk]
    exact Nat.pow_dvd_pow 2 (by omega)
  refine ⟨?_, ?_, ?_, ?_, ?_⟩ <;> dsimp only [cbCap] <;> rw [hce]
  · omega
  · exact Nat.mod_eq_zero_of_dvd hdvd
  · exact hcapM
  · exact List.length_range capacity
  · intro i hi
    rw [getD_range hi]
    exact ⟨by omega, Or.inl (Nat.mod_eq_of_lt hi)⟩

/-- Inversion of a successful `cb_init` call with non-null arguments. -/
theorem cb_init_ok_inversion {old cb0 : CircBuf} {hf : Bool} {capacity slot_size : Nat}
    {mem : Nat → Nat → Nat}
    (h : cb_init old true true hf true capacity slot_size mem = (0, cb0, 1)) :
    cb_is_power_of_two capacity = true ∧ slot_size ≠ 0 ∧
    cb0 = { slot_size := slot_size, mask := capacity - 1, slotsNull := false,
            hasFree := hf, head := 0, tail := 0,
            seqs := List.range capacity,
            slots := (List.range capacity).map (fun i => (List.range slot_size).map (mem i)) } := by
  by_cases hp : cb_is_power_of_two capacity = true
  · by_cases hs : slot_size = 0
    · exfalso
      unfold cb_init at h
      rw [if_pos (by simp [hs])] at h
      simp at h
    · rw [cb_init_ok hp hs] at h
      simp only [Prod.mk.injEq] at h
      exact ⟨hp, hs, h.2.1.symm⟩
  · exfalso
    unfold cb_init at h
    rw [if_pos (by simp [Bool.not_eq_true] at hp; simp [hp])] at h
    simp at h

end Circbuf

namespace Circbuf

/-- An arbitrary pre-existing ring value, used as the prior state handed to
`cb_init` in concrete instantiations. -/
def cbDefault : CircBuf :=
  { slot_size := 0, mask := 0, slotsNull := true, hasFree := false,
    head := 0, tail := 0, seqs := [], slots := [] }

/-- An all-zero model of freshly allocated memory. -/
def mem0 : Nat → Nat → Nat := fun _ _ => 0

/-- C1: in every state reachable from a successful `cb_init` by
claim/publish/release steps of the sequential model, the sequence number at
slot `pos & mask` is `pos` (free) or `pos + 1` (published), offset by a
multiple of the capacity for a future lap, all modulo `2^32`. -/
theorem c1_seq_lap_invariant {old cb0 cb : CircBuf} {hf : Bool}
    {capacity slot_size : Nat} {mem : Nat → Nat → Nat}
    (hinit : cb_init old true true hf true capacity slot_size mem = (0, cb0, 1))
    (hcapM : capacity < M) (hreach : Reach cb0 cb) (pos : Nat) (hpos : pos < M) :
    ∃ n, cb.seqs.getD (pos &&& cb.mask) 0 = (pos + n * cbCap cb) % M ∨
         cb.seqs.getD (pos &&& cb.mask) 0 = (pos + 1 + n * cbCap cb) % M := by
  obtain ⟨hp, hs, hcb0⟩ := cb_init_ok_inversion hinit
  have hS := SeqInv_reach (by rw [hcb0]; exact SeqInv_init hp hcapM) hreach
  obtain ⟨hc2, hdvd, hcM, hlen, hslot⟩ := hS
  have hdvd' : cbCap cb ∣ M := Nat.dvd_of_mod_eq_zero hdvd
  have hmask : cb.mask = cbCap cb - 1 := by unfold cbCap; omega
  have hidx : pos &&& cb.mask = pos % cbCap cb := by
    rw [hmask, mask_mod hc2 hdvd']
  have hi := hslot (pos % cbCap cb) (Nat.mod_lt _ (by omega))
  rw [hidx]
  rcases hi.2 with hl | hr
  · obtain ⟨n, hn⟩ := exists_lap hdvd' (by omega) hi.1 hl
    exact ⟨n, Or.inl hn⟩
  · have h2 : cb.seqs.getD (pos % cbCap cb) 0 % cbCap cb = (pos + 1) % cbCap cb := by
      rw [hr, Nat.add_mod pos 1, Nat.mod_eq_of_lt (show 1 < cbCap cb by omega)]
    obtain ⟨n, hn⟩ := exists_lap hdvd' (by omega) hi.1 h2
    exact ⟨n, Or.inr hn⟩

/-- The ring produced by `cb_init cbDefault true true true true 4 1 mem0`. -/
def ring4 : CircBuf :=
  { slot_size := 1, mask := 3, slotsNull := false, hasFree := true,
    head := 0, tail := 0, seqs := [0, 1, 2, 3], slots := [[0], [0], [0], [0]] }

theorem c1_seq_lap_invariant_witness :
    (cb_init cbDefault true true true true 4 1 mem0 = (0, ring4, 1)) ∧ (4 < M) ∧ (0 < M) ∧
    (∃ n, ring4.seqs.getD (0 &&& ring4.mask) 0 = (0 + n * cbCap ring4) % M ∨
          ring4.seqs.getD (0 &&& ring4.mask) 0 = (0 + 1 + n * cbCap ring4) % M) :=
  ⟨by decide, by decide, by decide,
    @c1_seq_lap_invariant cbDefault ring4 ring4 true 4 1 mem0
      (by decide) (by decide) (Reach.refl ring4) 0 (by decide)⟩

/-- C2: from a freshly initialized ring, any sequence of `cb_push`/`cb_pop`
calls in the sequential SPSC model is strictly FIFO: the successfully popped
payloads are a prefix of the successfully pushed payloads, in issue order. -/
theorem c2_spsc_fifo {old cb0 : CircBuf} {hf : Bool} {capacity slot_size : Nat}
    {mem : Nat → Nat → Nat} (ops : List CbOp)
    (hinit : cb_init old true true hf true capacity slot_size mem = (0, cb0, 1))
    (hcapM : capacity < M)
    (hlen : ∀ d, CbOp.push d ∈ ops → d.length = slot_size) :
    ∃ rest, (runOps ops cb0).2.1 = (runOps ops cb0).2.2 ++ rest := by
  obtain ⟨hp, hs, hcb0⟩ := cb_init_ok_inversion hinit
  have hInv : Inv cb0 [] := by rw [hcb0]; exact Inv_init hp hcapM
  have hss : cb0.slot_size = slot_size := by rw [hcb0]
  obtain ⟨q', _, hEq⟩ := runOps_spec ops cb0 [] hInv
    (fun d hm => by rw [hss]; exact hlen d hm)
  rw [List.nil_append] at hEq
  exact ⟨q', hEq.symm⟩

/-- The ring produced by `cb_init cbDefault true true true true 2 1 mem0`. -/
def ring2 : CircBuf :=
  { slot_size := 1, mask := 1, slotsNull := false, hasFree := true,
    head := 0, tail := 0, seqs := [0, 1], slots := [[0], [0]] }

theorem c2_spsc_fifo_witness :
    (cb_init cbDefault true true true true 2 1 mem0 = (0, ring2, 1)) ∧ (2 < M) ∧
    (∀ d, CbOp.push d ∈ [CbOp.push [5], CbOp.pop] → d.length = 1) ∧
    (∃ rest, (runOps [CbOp.push [5], CbOp.pop] ring2).2.1 =
      (runOps [CbOp.push [5], CbOp.pop] ring2).2.2 ++ rest) :=
  ⟨by decide, by decide, by intro d hm; simp at hm; subst hm; rfl,
    @c2_spsc_fifo cbDefault ring2 true 2 1 mem0 [CbOp.push [5], CbOp.pop]
      (by decide) (by decide) (by intro d hm; simp at hm; subst hm; rfl)⟩

end Circbuf

namespace Circbuf

/-- A reachable ring state holding one published, unconsumed message `[7]`:
capacity 2, slot size 1, after `cb_init` and one successful `cb_push`. -/
def c3ring : CircBuf :=
  (cb_push (cb_init cbDefault true true true true 2 1 mem0).2.1 [7] 1).2

/-- C3 as stated is false for a ring that already holds a message: pushing
`[9]` succeeds, the following pop also succeeds, but it returns the older
payload `[7]`, not `[9]`. -/
theorem c3_roundtrip_counterexample :
    ([9] : List Nat).length = 1 ∧ 1 ≤ c3ring.slot_size ∧
    (cb_push c3ring [9] 1).1 = 0 ∧
    (cb_pop (cb_push c3ring [9] 1).2 1).1 = 0 ∧
    (cb_pop (cb_push c3ring [9] 1).2 1).2.1 ≠ [9] := by decide

/-- C3, amended: on a ring in a valid *empty* state, `cb_push(b, n)` followed
by `cb_pop(x, n)` with `n = |b| ≤ slot_size` succeeds and returns exactly
`b`. -/
theorem c3_roundtrip_empty {cb : CircBuf} {b : List Nat} {n : Nat}
    (hInv : Inv cb []) (hb : b.length = n) (hn : n ≤ cb.slot_size) :
    (cb_push cb b n).1 = 0 ∧
    (cb_pop (cb_push cb b n).2 n).1 = 0 ∧
    (cb_pop (cb_push cb b n).2 n).2.1 = b := by
  have hroom : ([] : List (List Nat)).length < cbCap cb := by
    simpa using hInv.cap_pos
  obtain ⟨hr0, hInv1, hss, _⟩ := cb_push_step b n hInv hroom hn (by omega)
  rw [List.nil_append] at hInv1
  obtain ⟨hp0, hout, _, _, _⟩ := cb_pop_step n hInv1 (by rw [hss]; exact hn)
  refine ⟨hr0, hp0, ?_⟩
  rw [hout]
  have ht : b.take n = b := by
    rw [← hb]; exact List.take_length b
  rw [ht, ← hb, List.take_left]

theorem c3_roundtrip_empty_witness :
    Inv ring2 [] ∧ ([5] : List Nat).length = 1 ∧ 1 ≤ ring2.slot_size ∧
    ((cb_push ring2 [5] 1).1 = 0 ∧
     (cb_pop (cb_push ring2 [5] 1).2 1).1 = 0 ∧
     (cb_pop (cb_push ring2 [5] 1).2 1).2.1 = [5]) := by
  have hInv : Inv ring2 [] := by
    refine Inv.mk ?_ ?_ ?_ ?_ ?_ ?_ ?_ ?_ ?_ ?_ ?_ ?_ ?_ <;> decide
  exact ⟨hInv, rfl, by decide, c3_roundtrip_empty hInv rfl (by decide)⟩

/-- C4: from a freshly initialized ring of any capacity, `capacity` pushes
all succeed, and the next push returns `-1` (would-block), which is distinct
from `-22` (invalid argument). -/
theorem c4_full_would_block {old cb0 : CircBuf} {hf : Bool} {capacity slot_size : Nat}
    {mem : Nat → Nat → Nat} {payload : Nat → List Nat}
    (hinit : cb_init old true true hf true capacity slot_size mem = (0, cb0, 1))
    (hcapM : capacity < M)
    (hpl : ∀ j, (payload j).length = slot_size) :
    ∃ cb', pushN payload 0 capacity cb0 = some cb' ∧
      (cb_push cb' (payload capacity) cb'.slot_size).1 = -1 ∧
      (-1 : Int) ≠ -22 := by
  obtain ⟨hp, hs, hcb0⟩ := cb_init_ok_inversion hinit
  obtain ⟨hc2, k, hk⟩ := (cb_pow2_iff capacity).1 hp
  have hInv : Inv cb0 [] := by rw [hcb0]; exact Inv_init hp hcapM
  have hss : cb0.slot_size = slot_size := by rw [hcb0]
  have hcap0 : cbCap cb0 = capacity := by
    rw [hcb0]; unfold cbCap; dsimp only; omega
  obtain ⟨cb', hrun, hI, hss', hmk'⟩ := pushN_spec capacity 0 cb0 [] payload hInv
    (fun j => by rw [hss]; exact hpl j) (by simp [hcap0])
  refine ⟨cb', hrun, ?_, by decide⟩
  have hcap' : cbCap cb' = capacity := by
    unfold cbCap at hcap0 ⊢; rw [hmk']; exact hcap0
  have hfull : ([] ++ (List.range capacity).map (fun j => payload (0 + j))).length = cbCap cb' := by
    simp [hcap']
  rw [cb_push_full (payload capacity) cb'.slot_size hI hfull (Nat.le_refl _)]

theorem c4_full_would_block_witness :
    (cb_init cbDefault true true true true 2 1 mem0 = (0, ring2, 1)) ∧ (2 < M) ∧
    (∀ j : Nat, (([3] : List Nat)).length = 1) ∧
    (∃ cb', pushN (fun _ => [3]) 0 2 ring2 = some cb' ∧
      (cb_push cb' [3] cb'.slot_size).1 = -1 ∧ (-1 : Int) ≠ -22) :=
  ⟨by decide, by decide, fun _ => rfl,
    @c4_full_would_block cbDefault ring2 true 2 1 mem0 (fun _ => [3])
      (by decide) (by decide) (fun _ => rfl)⟩

end Circbuf

namespace Circbuf

/-- C5: `cb_init` returns `-22` (invalid argument) exactly when the ring
handle is null, the allocate function is null, the capacity is not a power
of two that is at least 2, or the slot size is 0; with valid arguments and a
successful allocation it returns 0, which is distinct from both failure
codes `-22` and `-12`. -/
theorem c5_init_validation (old : CircBuf) (b1 b2 hf ok : Bool)
    (capacity slot_size : Nat) (mem : Nat → Nat → Nat) :
    ((cb_init old b1 b2 hf ok capacity slot_size mem).1 = -22 ↔
      (b1 = false ∨ b2 = false ∨ ¬(2 ≤ capacity ∧ ∃ k, capacity = 2 ^ k) ∨ slot_size = 0)) ∧
    ((b1 = true ∧ b2 = true ∧ (2 ≤ capacity ∧ ∃ k, capacity = 2 ^ k) ∧ slot_size ≠ 0 ∧
        ok = true) →
      (cb_init old b1 b2 hf ok capacity slot_size mem).1 = 0) ∧
    ((0 : Int) ≠ -22 ∧ (0 : Int) ≠ -12) := by
  have hiff : (!b1 || !b2 || !(cb_is_power_of_two capacity) || slot_size == 0) = true ↔
      (b1 = false ∨ b2 = false ∨ ¬(2 ≤ capacity ∧ ∃ k, capacity = 2 ^ k) ∨ slot_size = 0) := by
    simp only [Bool.or_eq_true, Bool.not_eq_true', beq_iff_eq]
    rw [← cb_pow2_iff capacity, Bool.not_eq_true]
    tauto
  refine ⟨?_, ?_, by decide, by decide⟩
  · by_cases hc : (!b1 || !b2 || !(cb_is_power_of_two capacity) || slot_size == 0) = true
    · unfold cb_init
      rw [if_pos hc]
      simpa using hiff.1 hc
    · unfold cb_init
      rw [if_neg hc]
      constructor
      · intro h
        exfalso
        by_cases hok : ok
        · rw [if_neg (by simp [hok])] at h
          simp at h
        · rw [if_pos (by simp [hok])] at h
          simp at h
      · intro h
        exact absurd (hiff.2 h) hc
  · rintro ⟨hb1, hb2, hcap, hss, hok⟩
    subst hb1; subst hb2; subst hok
    unfold cb_init
    rw [if_neg (by simp [hss, ((cb_pow2_iff capacity).2 hcap)]),
      if_neg (by simp)]

theorem c5_init_validation_witness :
    ((cb_init cbDefault true true true true 4 1 mem0).1 = -22 ↔
      ((true : Bool) = false ∨ (true : Bool) = false ∨
        ¬(2 ≤ 4 ∧ ∃ k, 4 = 2 ^ k) ∨ (1 : Nat) = 0)) ∧
    (((true : Bool) = true ∧ (true : Bool) = true ∧ (2 ≤ 4 ∧ ∃ k, (4 : Nat) = 2 ^ k) ∧
        (1 : Nat) ≠ 0 ∧ (true : Bool) = true) →
      (cb_init cbDefault true true true true 4 1 mem0).1 = 0) ∧
    ((0 : Int) ≠ -22 ∧ (0 : Int) ≠ -12) :=
  c5_init_validation cbDefault true true true true 4 1 mem0

/-- C6: pushing and popping `2^32 + 4` messages one at a time through a ring
of capacity 4 yields every payload correctly, the 32-bit head and tail
counters wrapping past `2^32` on the way. -/
theorem c6_wraparound {old cb0 : CircBuf} {hf : Bool} {slot_size : Nat}
    {mem : Nat → Nat → Nat} {payload : Nat → List Nat}
    (hinit : cb_init old true true hf true 4 slot_size mem = (0, cb0, 1))
    (hpl : ∀ j, (payload j).length = slot_size) :
    roundTrips payload 0 (M + 4) cb0 = true := by
  obtain ⟨hp, hs, hcb0⟩ := cb_init_ok_inversion hinit
  have hInv : Inv cb0 [] := by rw [hcb0]; exact Inv_init hp (by norm_num [M])
  exact roundTrips_spec (M + 4) 0 cb0 payload hInv
    (fun j => by rw [hcb0]; exact hpl j)

theorem c6_wraparound_witness :
    (cb_init cbDefault true true true true 4 1 mem0 = (0, ring4, 1)) ∧
    (∀ j : Nat, (([0] : List Nat)).length = 1) ∧
    roundTrips (fun _ => [0]) 0 (M + 4) ring4 = true :=
  ⟨by decide, fun _ => rfl,
    @c6_wraparound cbDefault ring4 true 1 mem0 (fun _ => [0])
      (by decide) (fun _ => rfl)⟩

/-- C7: `cb_push` with a size strictly greater than `slot_size` returns
`-22` and leaves the ring completely unchanged: same head, tail, sequence
numbers and payload bytes, and no claim is performed. -/
theorem c7_oversize_push_unchanged (cb : CircBuf) (data : List Nat) (size : Nat)
    (h : cb.slot_size < size) :
    cb_push cb data size = (-22, cb) ∧
    (cb_push cb data size).2.head = cb.head ∧
    (cb_push cb data size).2.tail = cb.tail ∧
    (cb_push cb data size).2.seqs = cb.seqs ∧
    (cb_push cb data size).2.slots = cb.slots := by
  have hpush : cb_push cb data size = (-22, cb) := by
    unfold cb_push
    rw [if_pos (by omega)]
  exact ⟨hpush, by rw [hpush], by rw [hpush], by rw [hpush], by rw [hpush]⟩

theorem c7_oversize_push_unchanged_witness :
    ring2.slot_size < 2 ∧
    (cb_push ring2 [1, 2] 2 = (-22, ring2) ∧
     (cb_push ring2 [1, 2] 2).2.head = ring2.head ∧
     (cb_push ring2 [1, 2] 2).2.tail = ring2.tail ∧
     (cb_push ring2 [1, 2] 2).2.seqs = ring2.seqs ∧
     (cb_push ring2 [1, 2] 2).2.slots = ring2.slots) :=
  ⟨by decide, c7_oversize_push_unchanged ring2 [1, 2] 2 (by decide)⟩

/-- C8: destruction is idempotent.  On a constructed ring with a non-null
allocator `free`, the first `cb_free` calls `free` exactly once and marks
the slot array released; any `cb_free` after a `cb_free` performs no `free`
call and changes nothing, so `destroy; destroy` equals `destroy`. -/
theorem c8_destroy_idempotent (cb : CircBuf) :
    (cb.slotsNull = false → cb.hasFree = true →
      (cb_free cb).2 = 1 ∧ (cb_free cb).1 = { cb with slotsNull := true }) ∧
    cb_free (cb_free cb).1 = ((cb_free cb).1, 0) := by
  constructor
  · intro h1 h2
    unfold cb_free
    rw [if_neg (by simp [h1]), h2]
    exact ⟨rfl, rfl⟩
  · by_cases h : cb.slotsNull
    · unfold cb_free
      rw [if_pos h, if_pos h]
    · unfold cb_free
      rw [if_neg h]
      simp

theorem c8_destroy_idempotent_witness :
    ring2.slotsNull = false ∧ ring2.hasFree = true ∧
    (((cb_free ring2).2 = 1 ∧ (cb_free ring2).1 = { ring2 with slotsNull := true }) ∧
      cb_free (cb_free ring2).1 = ((cb_free ring2).1, 0)) :=
  ⟨rfl, rfl,
    ⟨(c8_destroy_idempotent ring2).1 rfl rfl, (c8_destroy_idempotent ring2).2⟩⟩

/-- C10: for every invalid input, `cb_init` returns `-22` before calling the
allocator (zero allocation calls) and before writing any field of the ring
(the prior ring value is returned unchanged). -/
theorem c10_invalid_init_no_effect {old : CircBuf} {b1 b2 hf ok : Bool}
    {capacity slot_size : Nat} {mem : Nat → Nat → Nat}
    (h : b1 = false ∨ b2 = false ∨ cb_is_power_of_two capacity = false ∨ slot_size = 0) :
    cb_init old b1 b2 hf ok capacity slot_size mem = (-22, old, 0) := by
  unfold cb_init
  rw [if_pos ?hc]
  case hc => rcases h with h | h | h | h <;> simp [h]

theorem c10_invalid_init_no_effect_witness :
    ((true : Bool) = false ∨ (true : Bool) = false ∨ cb_is_power_of_two 3 = false ∨
      (1 : Nat) = 0) ∧
    cb_init cbDefault true true true true 3 1 mem0 = (-22, cbDefault, 0) :=
  ⟨Or.inr (Or.inr (Or.inl (by decide))),
    @c10_invalid_init_no_effect cbDefault true true true true 3 1 mem0
      (Or.inr (Or.inr (Or.inl (by decide))))⟩

end Circbuf
